import Mathlib

/-!
Verification of the grade-computation and statistics engine of the
Academic Analytics Lite repository.

The Python modules src/transform.py and src/analyze.py are shallowly
embedded below.  Numeric values are modelled as rationals; the Python
value None (absent or unknown) is modelled with Option; a Python dict
record is modelled as a structure whose derived fields are doubly
optional (outer layer: is the key present at all; inner layer: the
stored value, which may itself be None).  Python exceptions (list index
out of range) are modelled with Except.  The stable Python sort
(Timsort) is modelled with the stable insertion sort of Mathlib.
-/

/-- One student record, mirroring the dict shape used by transform.py.
Raw fields are read with dict.get, so an absent key and a stored None
are indistinguishable there and a single Option layer is faithful.
Derived fields are written by key assignment, so presence of the key is
observable and they carry two Option layers. -/
structure StudentRecord where
  student_id : String := ""
  quiz1 : Option ℚ := none
  quiz2 : Option ℚ := none
  quiz3 : Option ℚ := none
  quiz4 : Option ℚ := none
  quiz5 : Option ℚ := none
  midterm : Option ℚ := none
  final : Option ℚ := none
  attendance_percent : Option ℚ := none
  quiz_average : Option (Option ℚ) := none
  final_grade : Option (Option ℚ) := none
  letter_grade : Option String := none
  improvement : Option (Option ℚ) := none
deriving DecidableEq, Inhabited

/-- The weight configuration dict. -/
structure Weights where
  quizzes : ℚ
  midterm : ℚ
  final : ℚ
  attendance : ℚ
deriving DecidableEq

/-- compute_quiz_average from src/transform.py: the mean of the known
quiz scores, None when no quiz is known. -/
def compute_quiz_average (record : StudentRecord) : Option ℚ :=
  let quiz_scores :=
    [record.quiz1, record.quiz2, record.quiz3, record.quiz4, record.quiz5].filterMap id
  if quiz_scores.isEmpty then none
  else some (quiz_scores.sum / (quiz_scores.length : ℚ))

/-- compute_final_grade from src/transform.py: weighted grade
accumulated over the known components, renormalized to the nominal
weight total; None when midterm or final is unknown or the accumulated
weight is not positive. -/
def compute_final_grade (record : StudentRecord) (weights : Weights) : Option ℚ :=
  let quiz_avg := compute_quiz_average record
  match record.midterm, record.final with
  | some midterm, some final =>
    let gw0 : ℚ × ℚ := (0, 0)
    let gw1 :=
      match quiz_avg with
      | some qa => (gw0.1 + qa * weights.quizzes, gw0.2 + weights.quizzes)
      | none => gw0
    let gw2 := (gw1.1 + midterm * weights.midterm, gw1.2 + weights.midterm)
    let gw3 := (gw2.1 + final * weights.final, gw2.2 + weights.final)
    let gw4 :=
      match record.attendance_percent with
      | some att => (gw3.1 + att * weights.attendance, gw3.2 + weights.attendance)
      | none => gw3
    if (0 : ℚ) < gw4.2 then
      some (gw4.1 / gw4.2 *
        (weights.quizzes + weights.midterm + weights.final + weights.attendance))
    else none
  | _, _ => none

/-- Descending order on grade-scale entries, comparing thresholds.
This is the sort key used by letter_grade (sorted with reverse=True,
which in Python is a stable descending sort). -/
def descByThreshold (a b : String × ℚ) : Prop := b.2 ≤ a.2

instance : DecidableRel descByThreshold :=
  fun a b => inferInstanceAs (Decidable (b.2 ≤ a.2))

instance : IsTotal (String × ℚ) descByThreshold :=
  ⟨fun a b => (le_total b.2 a.2).imp id id⟩

instance : IsTrans (String × ℚ) descByThreshold :=
  ⟨fun _ _ _ h1 h2 => le_trans h2 h1⟩

/-- letter_grade from src/transform.py: N/A for an unknown grade,
otherwise the first letter of the descending-sorted scale whose
threshold is at most the grade, and F when none matches.  The scale
dict is modelled as an association list in insertion order. -/
def letter_grade (numeric_grade : Option ℚ) (grade_scale : List (String × ℚ)) : String :=
  match numeric_grade with
  | none => "N/A"
  | some g =>
    let sorted_grades := List.insertionSort descByThreshold grade_scale
    match sorted_grades.find? (fun p => decide (p.2 ≤ g)) with
    | some p => p.1
    | none => "F"

/-- add_computed_fields from src/transform.py: copies each record and
assigns the keys quiz_average, final_grade and letter_grade.  (It does
not assign improvement; the callers in app.py, main.py and dashboard.py
do that separately.) -/
def add_computed_fields (records : List StudentRecord) (weights : Weights)
    (grade_scale : List (String × ℚ)) : List StudentRecord :=
  records.map fun record =>
    let fg := compute_final_grade record weights
    { record with
        quiz_average := some (compute_quiz_average record)
        final_grade := some fg
        letter_grade := some (letter_grade fg grade_scale) }

/-- compute_improvement from src/transform.py: signed percentage change
from midterm to final, None when either is unknown or midterm is 0. -/
def compute_improvement (record : StudentRecord) : Option ℚ :=
  match record.midterm, record.final with
  | some midterm, some final =>
    if midterm = 0 then none
    else some ((final - midterm) / midterm * 100)
  | _, _ => none

/-- The final-grade formula as the spec states it: a single sum over
exactly the known components, guarded by total_weight = 0, rather than
the sequential accumulation guarded by total_weight > 0 that the code
uses.  Comparison target for the refinement claim about
compute_final_grade. -/
def finalGradeSpec (record : StudentRecord) (weights : Weights) : Option ℚ :=
  match record.midterm, record.final with
  | some midterm, some final =>
    let known : List (ℚ × ℚ) :=
      (match compute_quiz_average record with
        | some qa => [(qa, weights.quizzes)]
        | none => []) ++
      [(midterm, weights.midterm), (final, weights.final)] ++
      (match record.attendance_percent with
        | some att => [(att, weights.attendance)]
        | none => [])
    let grade := (known.map fun c => c.1 * c.2).sum
    let total_weight := (known.map Prod.snd).sum
    if total_weight = 0 then none
    else some (grade / total_weight *
      (weights.quizzes + weights.midterm + weights.final + weights.attendance))
  | _, _ => none

/-- The canonical grade scale used by the configuration examples. -/
def canonScale : List (String × ℚ) := [("A", 90), ("B", 80), ("C", 70), ("D", 60), ("F", 0)]

/-- Quality rank of a letter, A highest; used to state monotonicity. -/
def gradeRank (s : String) : ℕ :=
  if s = "A" then 4 else if s = "B" then 3 else if s = "C" then 2
  else if s = "D" then 1 else 0

/-- Result shape of compute_stats from src/analyze.py.  The standard
deviation is a real number (math.sqrt); every other statistic is
rational. -/
structure Stats where
  count : ℕ
  mean : Option ℚ
  median : Option ℚ
  std : Option ℝ
  min : Option ℚ
  max : Option ℚ

/-- Round to the nearest integer, ties to even (the Python builtin
round convention), on rationals. -/
def roundHalfEven (q : ℚ) : ℤ :=
  let f := ⌊q⌋
  if q - f < 1 / 2 then f
  else if 1 / 2 < q - f then f + 1
  else if f % 2 = 0 then f else f + 1

/-- round(x, 2) on rationals. -/
def round2 (q : ℚ) : ℚ := (roundHalfEven (q * 100) : ℚ) / 100

/-- Round to the nearest integer, ties to even, on reals. -/
noncomputable def roundHalfEvenR (x : ℝ) : ℤ :=
  let f := ⌊x⌋
  if x - f < 1 / 2 then f
  else if 1 / 2 < x - f then f + 1
  else if f % 2 = 0 then f else f + 1

/-- round(x, 2) on reals. -/
noncomputable def round2R (x : ℝ) : ℝ := (roundHalfEvenR (x * 100) : ℝ) / 100

/-- compute_stats from src/analyze.py: count, mean, median, population
standard deviation, min and max, each rounded to two decimals; all
unknown on the empty collection. -/
noncomputable def compute_stats (values : List ℚ) : Stats :=
  if values = [] then ⟨0, none, none, none, none, none⟩
  else
    let n := values.length
    let sorted_values := List.insertionSort (· ≤ ·) values
    let mean := values.sum / (n : ℚ)
    let median :=
      if n % 2 = 0 then (sorted_values.getD (n / 2 - 1) 0 + sorted_values.getD (n / 2) 0) / 2
      else sorted_values.getD (n / 2) 0
    let variance := (values.map fun x => (x - mean) ^ 2).sum / (n : ℚ)
    { count := n
      mean := some (round2 mean)
      median := some (round2 median)
      std := some (round2R (Real.sqrt (variance : ℝ)))
      min := values.min?.map round2
      max := values.max?.map round2 }

/-- Python list subscription with an integer index: nonnegative indices
count from the front, negative indices from the back, anything else
raises IndexError. -/
def pyGet (l : List ℚ) (i : ℤ) : Except String ℚ :=
  if 0 ≤ i ∧ i < (l.length : ℤ) then .ok (l.getD i.toNat 0)
  else if -(l.length : ℤ) ≤ i ∧ i < 0 then .ok (l.getD ((l.length : ℤ) + i).toNat 0)
  else .error "IndexError"

/-- Python int() on a rational: truncation toward zero. -/
def ratTrunc (q : ℚ) : ℤ := if 0 ≤ q then ⌊q⌋ else ⌈q⌉

/-- compute_percentile from src/analyze.py: linear interpolation between
order statistics at fractional rank (p/100)(N-1).  The list indexing is
the modelled Python indexing, so an out-of-range lower index raises. -/
def compute_percentile (values : List ℚ) (percentile : ℚ) : Except String (Option ℚ) :=
  if values = [] then .ok none
  else
    let sorted_values := List.insertionSort (· ≤ ·) values
    let n := sorted_values.length
    let rank : ℚ := percentile / 100 * ((n : ℚ) - 1)
    let lower : ℤ := ratTrunc rank
    let upper : ℤ := min (lower + 1) ((n : ℤ) - 1)
    let weight : ℚ := rank - (lower : ℚ)
    match pyGet sorted_values lower with
    | .error e => .error e
    | .ok a =>
      match pyGet sorted_values upper with
      | .error e => .error e
      | .ok b => .ok (some (a * (1 - weight) + b * weight))

/-- find_outliers from src/analyze.py: empty below 4 values; the iqr
method keeps values strictly outside [Q1 - 1.5 IQR, Q3 + 1.5 IQR]; the
zscore method keeps values more than 2 population standard deviations
from the mean (computed over the reals, as math.sqrt is). -/
noncomputable def find_outliers (values : List ℚ) (method : String) :
    Except String (List ℚ) :=
  if values = [] ∨ values.length < 4 then .ok []
  else if method = "iqr" then
    match compute_percentile values 25, compute_percentile values 75 with
    | .error e, _ => .error e
    | _, .error e => .error e
    | .ok (some q1), .ok (some q3) =>
      let iqr := q3 - q1
      let lower_bound := q1 - 3 / 2 * iqr
      let upper_bound := q3 + 3 / 2 * iqr
      .ok (values.filter fun v =>
        decide (v < lower_bound) || decide (upper_bound < v))
    | _, _ => .ok []
  else if method = "zscore" then
    let mean : ℝ := ((values.sum : ℚ) : ℝ) / (values.length : ℝ)
    let std : ℝ :=
      Real.sqrt ((values.map fun x => ((x : ℝ) - mean) ^ 2).sum / (values.length : ℝ))
    if std = 0 then .ok []
    else .ok (values.filter fun v => decide ((2 : ℝ) < |((v : ℝ) - mean) / std|))
  else .ok []

/-- record.get of the final_grade key: None when the key is absent or
holds None. -/
def get_final_grade (r : StudentRecord) : Option ℚ := r.final_grade.getD none

/-- Descending order on records by final grade, the sort key of
top_performers (records compared there all have a known grade, so the
getD default is never consulted). -/
def descByGrade (a b : StudentRecord) : Prop :=
  (get_final_grade b).getD 0 ≤ (get_final_grade a).getD 0

instance : DecidableRel descByGrade :=
  fun a b => inferInstanceAs (Decidable ((get_final_grade b).getD 0 ≤ (get_final_grade a).getD 0))

instance : IsTotal StudentRecord descByGrade :=
  ⟨fun a b => (le_total ((get_final_grade b).getD 0) ((get_final_grade a).getD 0)).imp id id⟩

instance : IsTrans StudentRecord descByGrade :=
  ⟨fun _ _ _ h1 h2 => le_trans h2 h1⟩

/-- top_performers from src/analyze.py: keep the records with a known
final grade, sort them descending by grade (stable), take the first n. -/
def top_performers (records : List StudentRecord) (n : ℕ) : List StudentRecord :=
  let valid_records := records.filter fun r => (get_final_grade r).isSome
  let sorted_records := List.insertionSort descByGrade valid_records
  sorted_records.take n

/-- C9: compute_improvement is unknown exactly when midterm or final is
unknown or midterm is 0; otherwise it is (final - midterm) / midterm * 100;
the three concrete examples of the spec hold. -/
theorem compute_improvement_spec :
    (∀ r : StudentRecord,
      (compute_improvement r = none ↔
        r.midterm = none ∨ r.final = none ∨ r.midterm = some 0)) ∧
    (∀ (r : StudentRecord) (m f : ℚ), r.midterm = some m → r.final = some f →
      m ≠ 0 → compute_improvement r = some ((f - m) / m * 100)) ∧
    compute_improvement { midterm := some 70, final := some 84 } = some 20 ∧
    compute_improvement { midterm := some 90, final := some 81 } = some (-10) ∧
    compute_improvement { midterm := some 0, final := some 50 } = none := by
  refine ⟨fun r => ?_, fun r m f hm hf hm0 => ?_, ?_, ?_, ?_⟩
  · rcases hm : r.midterm with _ | m <;> rcases hf : r.final with _ | f <;>
      simp [compute_improvement, hm, hf]
  · simp [compute_improvement, hm, hf, hm0]
  · simp [compute_improvement]
    norm_num
  · simp [compute_improvement]
    norm_num
  · simp [compute_improvement]

/-- Closed instance of the compute_improvement theorem at the first
spec example, with every hypothesis discharged concretely. -/
theorem compute_improvement_spec_witness :
    compute_improvement { midterm := some 70, final := some 84 } =
      some ((84 - 70) / 70 * 100) :=
  compute_improvement_spec.2.1 { midterm := some 70, final := some 84 } 70 84
    rfl rfl (by norm_num)

/-- Bridge between the two guard styles of the final-grade computation:
with a nonnegative accumulated weight, testing 0 < w and testing w = 0
select complementary branches. -/
theorem if_grade_eq {g1 g2 t1 t2 W : ℚ} (hg : g1 = g2) (ht : t1 = t2) (hnn : 0 ≤ t1) :
    (if (0 : ℚ) < t1 then some (g1 / t1 * W) else none) =
    (if t2 = 0 then none else some (g2 / t2 * W)) := by
  subst hg
  subst ht
  rcases eq_or_lt_of_le hnn with h | h
  · simp [← h]
  · simp [h, h.ne']

/-- C1: for every record and every (nonnegative, as the configuration
data model requires) weight configuration, compute_final_grade agrees
with the spec formula: unknown when midterm or final is unknown,
otherwise the sum of component times weight over the known components,
divided by the total known weight and rescaled to the nominal weight
total, unknown when the total known weight is zero. -/
theorem compute_final_grade_spec (record : StudentRecord) (weights : Weights)
    (hq : 0 ≤ weights.quizzes) (hm : 0 ≤ weights.midterm)
    (hf : 0 ≤ weights.final) (ha : 0 ≤ weights.attendance) :
    compute_final_grade record weights = finalGradeSpec record weights := by
  rcases hmid : record.midterm with _ | m <;>
    rcases hfin : record.final with _ | f <;>
      simp only [compute_final_grade, finalGradeSpec, hmid, hfin]
  rcases hqa : compute_quiz_average record with _ | qa <;>
    rcases hatt : record.attendance_percent with _ | att <;>
      simp only [List.map_append, List.map_cons, List.map_nil, List.sum_append,
        List.sum_cons, List.sum_nil, List.nil_append, List.cons_append] <;>
      exact if_grade_eq (by ring) (by ring) (by linarith)

/-- Closed instance of the compute_final_grade theorem at a concrete
record and weight configuration, hypotheses discharged concretely. -/
theorem compute_final_grade_spec_witness :
    (0 : ℚ) ≤ 1 / 5 ∧
    compute_final_grade { quiz1 := some 80, midterm := some 85, final := some 88 }
        { quizzes := 1 / 5, midterm := 3 / 10, final := 2 / 5, attendance := 1 / 10 } =
      finalGradeSpec { quiz1 := some 80, midterm := some 85, final := some 88 }
        { quizzes := 1 / 5, midterm := 3 / 10, final := 2 / 5, attendance := 1 / 10 } :=
  ⟨by norm_num,
    compute_final_grade_spec _ _ (by norm_num) (by norm_num) (by norm_num) (by norm_num)⟩

/-- Counterexample to the claim that add_computed_fields adds the
improvement field: on a record with known midterm and final the
improvement metric is defined, yet the enriched record still has no
improvement key. -/
theorem add_computed_fields_counterexample :
    ((add_computed_fields [{ midterm := some 70, final := some 84 }]
        { quizzes := 1 / 5, midterm := 3 / 10, final := 2 / 5, attendance := 1 / 10 }
        [("A", 90)]).map fun r => r.improvement) = [none] ∧
    compute_improvement { midterm := some 70, final := some 84 } = some 20 := by
  constructor
  · rfl
  · simp [compute_improvement]
    norm_num

/-- C3 (amended): add_computed_fields returns one output record per
input record, in order; each output is its input with quiz_average,
final_grade and letter_grade assigned from that record and the
configuration, every raw field kept unchanged, and the improvement
field left exactly as in the input (it is not added here). -/
theorem add_computed_fields_spec (records : List StudentRecord) (weights : Weights)
    (grade_scale : List (String × ℚ)) :
    (add_computed_fields records weights grade_scale).length = records.length ∧
    ∀ i : Fin records.length,
      (add_computed_fields records weights grade_scale).getD i.1 default =
        { records.get i with
            quiz_average := some (compute_quiz_average (records.get i))
            final_grade := some (compute_final_grade (records.get i) weights)
            letter_grade := some (letter_grade
              (compute_final_grade (records.get i) weights) grade_scale) } := by
  constructor
  · simp [add_computed_fields]
  · intro i
    have hlt : i.1 < (add_computed_fields records weights grade_scale).length := by
      simp only [add_computed_fields, List.length_map]
      exact i.2
    rw [List.getD_eq_getElem _ _ hlt]
    simp [add_computed_fields, List.getElem_map, List.get_eq_getElem]

/-- Inserting an element that satisfies p in front of every p-element it
can precede commutes with filtering by p: the element lands ahead of all
p-elements already present. -/
theorem filter_orderedInsert_pos {α : Type} (r : α → α → Prop) [DecidableRel r]
    (p : α → Bool) (x : α) (hx : p x = true) :
    ∀ l : List α, (∀ y ∈ l, p y = true → r x y) →
      (List.orderedInsert r x l).filter p = x :: l.filter p := by
  intro l
  induction l with
  | nil => intro _; simp [List.orderedInsert, hx]
  | cons y ys ih =>
    intro h
    by_cases hr : r x y
    · simp [List.orderedInsert, hr, List.filter_cons, hx]
    · have hy : p y = false := by
        rcases hpy : p y with _ | _
        · rfl
        · exact absurd (h y (List.mem_cons_self y ys) hpy) hr
      simp only [List.orderedInsert, if_neg hr, List.filter_cons, hy,
        Bool.false_eq_true, if_false]
      exact ih fun z hz hpz => h z (List.mem_cons_of_mem y hz) hpz

/-- Inserting an element that fails p leaves the p-filter unchanged. -/
theorem filter_orderedInsert_neg {α : Type} (r : α → α → Prop) [DecidableRel r]
    (p : α → Bool) (x : α) (hx : p x = false) :
    ∀ l : List α, (List.orderedInsert r x l).filter p = l.filter p := by
  intro l
  induction l with
  | nil => simp [List.orderedInsert, hx]
  | cons y ys ih =>
    by_cases hr : r x y
    · simp [List.orderedInsert, hr, List.filter_cons, hx]
    · simp only [List.orderedInsert, if_neg hr, List.filter_cons, ih]

/-- Stability of the modelled Python sort, phrased through filters: when
all p-elements are mutually related by the sort relation (for a key sort:
they share a key), sorting does not change the p-filtered subsequence. -/
theorem filter_insertionSort {α : Type} (r : α → α → Prop) [DecidableRel r]
    (p : α → Bool) (hp : ∀ a b, p a = true → p b = true → r a b) :
    ∀ l : List α, (List.insertionSort r l).filter p = l.filter p := by
  intro l
  induction l with
  | nil => rfl
  | cons x xs ih =>
    simp only [List.insertionSort]
    rcases hpx : p x with _ | _
    · rw [filter_orderedInsert_neg r p x hpx, ih, List.filter_cons, hpx]
      simp
    · rw [filter_orderedInsert_pos r p x hpx _ fun y _ hpy => hp x y hpx hpy,
        ih, List.filter_cons, hpx]
      simp

/-- In a list sorted descending by threshold, if entries above threshold
t all exceed g while t itself does not, the first entry whose threshold
is at most g is the head of the filter at threshold exactly t. -/
theorem find?_tie_sorted (g t : ℚ) (L : String) :
    ∀ l : List (String × ℚ), l.Pairwise descByThreshold →
      (∀ p ∈ l, t < p.2 → g < p.2) → t ≤ g →
      (l.filter fun p => decide (p.2 = t)).head? = some (L, t) →
      l.find? (fun p => decide (p.2 ≤ g)) = some (L, t) := by
  intro l
  induction l with
  | nil => intro _ _ _ hfil; simp at hfil
  | cons x xs ih =>
    intro hpw hhi hle hfil
    by_cases hx : x.2 ≤ g
    · rw [List.find?_cons_of_pos _ (by simpa using hx)]
      have hxt : x.2 ≤ t := by
        by_contra hgt
        push_neg at hgt
        exact absurd hx (not_le.mpr (hhi x (List.mem_cons_self x xs) hgt))
      rcases eq_or_lt_of_le hxt with heq | hlt
      · rw [List.filter_cons_of_pos (by simpa using heq)] at hfil
        simp only [List.head?_cons, Option.some.injEq] at hfil
        rw [hfil]
      · exfalso
        have hnil : (x :: xs).filter (fun p => decide (p.2 = t)) = [] := by
          rw [List.filter_eq_nil_iff]
          intro a ha
          simp only [decide_eq_true_eq]
          intro hat
          rcases List.mem_cons.mp ha with rfl | hmem
          · exact absurd hat (ne_of_lt hlt)
          · have hax : descByThreshold x a := (List.pairwise_cons.mp hpw).1 a hmem
            have : a.2 < t := lt_of_le_of_lt hax hlt
            exact absurd hat (ne_of_lt this)
        rw [hnil] at hfil
        simp at hfil
    · have hxt : t < x.2 := by
        by_contra hle2
        push_neg at hle2
        exact hx (le_trans hle2 hle)
      rw [List.find?_cons_of_neg _ (by simpa using hx)]
      refine ih (List.pairwise_cons.mp hpw).2
        (fun p hp => hhi p (List.mem_cons_of_mem x hp)) hle ?_
      rwa [List.filter_cons_of_neg (by simp [ne_of_gt hxt])] at hfil

/-- In a list sorted descending by threshold, the entry found by the
threshold-at-most-g search has the greatest threshold among all entries
with threshold at most g. -/
theorem find?_max_sorted (g : ℚ) :
    ∀ l : List (String × ℚ), l.Pairwise descByThreshold →
      ∀ x, l.find? (fun p => decide (p.2 ≤ g)) = some x →
      ∀ q ∈ l, q.2 ≤ g → q.2 ≤ x.2 := by
  intro l
  induction l with
  | nil => intro _ x hfind; simp at hfind
  | cons y ys ih =>
    intro hpw x hfind q hq hqg
    by_cases hy : y.2 ≤ g
    · rw [List.find?_cons_of_pos _ (by simpa using hy)] at hfind
      have hxy : y = x := by simpa using hfind
      subst hxy
      rcases List.mem_cons.mp hq with rfl | hmem
      · exact le_refl _
      · exact (List.pairwise_cons.mp hpw).1 q hmem
    · rw [List.find?_cons_of_neg _ (by simpa using hy)] at hfind
      rcases List.mem_cons.mp hq with rfl | hmem
      · exact absurd hqg hy
      · exact ih (List.pairwise_cons.mp hpw).2 x hfind q hmem hqg

/-- Piecewise closed form of letter_grade on the canonical scale. -/
theorem letter_grade_canon (g : ℚ) :
    letter_grade (some g) canonScale =
      if 90 ≤ g then "A" else if 80 ≤ g then "B" else if 70 ≤ g then "C"
      else if 60 ≤ g then "D" else "F" := by
  have hs : List.insertionSort descByThreshold canonScale = canonScale := by
    apply List.Sorted.insertionSort_eq
    simp only [canonScale, descByThreshold, List.sorted_cons, List.mem_cons]
    norm_num
  simp only [letter_grade]
  rw [hs]
  simp only [canonScale]
  by_cases h90 : (90 : ℚ) ≤ g
  · rw [List.find?_cons_of_pos _ (by simpa using h90)]
    simp [h90]
  · rw [List.find?_cons_of_neg _ (by simpa using h90)]
    by_cases h80 : (80 : ℚ) ≤ g
    · rw [List.find?_cons_of_pos _ (by simpa using h80)]
      simp [h90, h80]
    · rw [List.find?_cons_of_neg _ (by simpa using h80)]
      by_cases h70 : (70 : ℚ) ≤ g
      · rw [List.find?_cons_of_pos _ (by simpa using h70)]
        simp [h90, h80, h70]
      · rw [List.find?_cons_of_neg _ (by simpa using h70)]
        by_cases h60 : (60 : ℚ) ≤ g
        · rw [List.find?_cons_of_pos _ (by simpa using h60)]
          simp [h90, h80, h70, h60]
        · rw [List.find?_cons_of_neg _ (by simpa using h60)]
          by_cases h0 : (0 : ℚ) ≤ g
          · rw [List.find?_cons_of_pos _ (by simpa using h0)]
            simp [h90, h80, h70, h60]
          · rw [List.find?_cons_of_neg _ (by simpa using h0)]
            simp [h90, h80, h70, h60]

/-- C4: letter_grade maps an unknown grade to N/A and (for a scale that
uses no N/A letter) only then; a known grade is mapped to the letter of
a scale entry of maximal threshold among the thresholds not exceeding
the grade, and to F when every threshold exceeds the grade; on the
canonical scale the result is monotone in the grade and matches the
five spec examples. -/
theorem letter_grade_spec (scale : List (String × ℚ))
    (hna : ∀ p ∈ scale, p.1 ≠ "N/A") :
    letter_grade none scale = "N/A" ∧
    (∀ g : ℚ, letter_grade (some g) scale ≠ "N/A") ∧
    (∀ g : ℚ, (∃ p ∈ scale, p.2 ≤ g) →
      ∃ p ∈ scale, letter_grade (some g) scale = p.1 ∧ p.2 ≤ g ∧
        ∀ q ∈ scale, q.2 ≤ g → q.2 ≤ p.2) ∧
    (∀ g : ℚ, (∀ p ∈ scale, g < p.2) → letter_grade (some g) scale = "F") ∧
    (∀ g1 g2 : ℚ, g2 ≤ g1 →
      gradeRank (letter_grade (some g2) canonScale) ≤
        gradeRank (letter_grade (some g1) canonScale)) ∧
    letter_grade (some 95) canonScale = "A" ∧
    letter_grade (some 85) canonScale = "B" ∧
    letter_grade (some 75) canonScale = "C" ∧
    letter_grade (some 65) canonScale = "D" ∧
    letter_grade (some 55) canonScale = "F" := by
  have hsorted : (List.insertionSort descByThreshold scale).Pairwise descByThreshold :=
    List.sorted_insertionSort descByThreshold scale
  have hperm := List.perm_insertionSort descByThreshold scale
  refine ⟨rfl, fun g => ?_, fun g hex => ?_, fun g hall => ?_, fun g1 g2 h => ?_,
    ?_, ?_, ?_, ?_, ?_⟩
  · simp only [letter_grade]
    rcases hfind : (List.insertionSort descByThreshold scale).find?
        (fun p => decide (p.2 ≤ g)) with _ | p
    · rw [hfind]
      decide
    · rw [hfind]
      exact hna p (hperm.mem_iff.mp (List.mem_of_find?_eq_some hfind))
  · rcases hfind : (List.insertionSort descByThreshold scale).find?
        (fun p => decide (p.2 ≤ g)) with _ | x
    · exfalso
      rw [List.find?_eq_none] at hfind
      obtain ⟨p, hp, hpg⟩ := hex
      exact hfind p (hperm.mem_iff.mpr hp) (by simpa using hpg)
    · refine ⟨x, hperm.mem_iff.mp (List.mem_of_find?_eq_some hfind), ?_, ?_, ?_⟩
      · simp only [letter_grade, hfind]
      · simpa using List.find?_some hfind
      · intro q hq hqg
        exact find?_max_sorted g _ hsorted x hfind q (hperm.mem_iff.mpr hq) hqg
  · have hnone : (List.insertionSort descByThreshold scale).find?
        (fun p => decide (p.2 ≤ g)) = none :=
      List.find?_eq_none.mpr fun p hp =>
        by simpa using not_le.mpr (hall p (hperm.mem_iff.mp hp))
    simp only [letter_grade, hnone]
  · rw [letter_grade_canon, letter_grade_canon]
    split_ifs <;> first | decide | (exfalso; linarith)
  · rw [letter_grade_canon]
    norm_num
  · rw [letter_grade_canon]
    norm_num
  · rw [letter_grade_canon]
    norm_num
  · rw [letter_grade_canon]
    norm_num
  · rw [letter_grade_canon]
    norm_num

/-- Closed instance of the letter_grade theorem on the canonical scale,
hypothesis discharged concretely. -/
theorem letter_grade_spec_witness :
    letter_grade none canonScale = "N/A" :=
  (letter_grade_spec canonScale (by decide)).1

/-- C10: when a known grade reaches threshold t and no higher scale
threshold, letter_grade returns the letter of the first entry with
threshold t in the scale in insertion order, because the descending
sort used internally is stable. -/
theorem letter_grade_tiebreak (scale : List (String × ℚ)) (g t : ℚ) (L : String)
    (hfirst : (scale.filter fun p => decide (p.2 = t)).head? = some (L, t))
    (hle : t ≤ g)
    (hhi : ∀ p ∈ scale, t < p.2 → g < p.2) :
    letter_grade (some g) scale = L := by
  have hsorted : (List.insertionSort descByThreshold scale).Pairwise descByThreshold :=
    List.sorted_insertionSort descByThreshold scale
  have hperm := List.perm_insertionSort descByThreshold scale
  have hfil : ((List.insertionSort descByThreshold scale).filter
      fun p => decide (p.2 = t)).head? = some (L, t) := by
    rw [filter_insertionSort descByThreshold _ ?_ scale]
    · exact hfirst
    · intro a b ha hb
      simp only [decide_eq_true_eq] at ha hb
      show b.2 ≤ a.2
      rw [ha, hb]
  have hfind := find?_tie_sorted g t L _ hsorted
    (fun p hp => hhi p (hperm.mem_iff.mp hp)) hle hfil
  simp only [letter_grade, hfind]

/-- Closed instance of the tiebreak theorem: two entries share the
threshold 80 and the one listed first in the scale wins. -/
theorem letter_grade_tiebreak_witness :
    letter_grade (some 85) [("B", 80), ("A", 80), ("C", 70)] = "B" :=
  letter_grade_tiebreak [("B", 80), ("A", 80), ("C", 70)] 85 80 "B"
    (by decide) (by decide) (by decide)

/-- C6: top_performers returns the first n records of the stable
descending sort of the known-grade records: a permutation of the
filtered input, sorted descending by final grade, in which the records
at each fixed grade value appear exactly in their original relative
order. -/
theorem top_performers_spec (records : List StudentRecord) (n : ℕ) :
    ∃ s : List StudentRecord,
      top_performers records n = s.take n ∧
      s.Perm (records.filter fun r => (get_final_grade r).isSome) ∧
      s.Sorted descByGrade ∧
      ∀ q : ℚ, s.filter (fun r => decide (get_final_grade r = some q)) =
        (records.filter fun r => (get_final_grade r).isSome).filter
          (fun r => decide (get_final_grade r = some q)) := by
  refine ⟨List.insertionSort descByGrade
      (records.filter fun r => (get_final_grade r).isSome),
    rfl, List.perm_insertionSort _ _, List.sorted_insertionSort _ _, fun q => ?_⟩
  apply filter_insertionSort
  intro a b ha hb
  simp only [decide_eq_true_eq] at ha hb
  show (get_final_grade b).getD 0 ≤ (get_final_grade a).getD 0
  rw [ha, hb]

/-- Two lists of rationals that are permutations of one another have
the same ascending insertion sort, by antisymmetry of the order. -/
theorem insertionSort_perm_eq {V W : List ℚ} (h : V.Perm W) :
    List.insertionSort (· ≤ ·) V = List.insertionSort (· ≤ ·) W :=
  List.eq_of_perm_of_sorted
    ((List.perm_insertionSort _ V).trans (h.trans (List.perm_insertionSort _ W).symm))
    (List.sorted_insertionSort _ V) (List.sorted_insertionSort _ W)

/-- The minimum of a list of rationals is permutation invariant. -/
theorem min?_perm {V W : List ℚ} (h : V.Perm W) : V.min? = W.min? := by
  haveI : Std.Antisymm ((· : ℚ) ≤ ·) := ⟨fun h1 h2 => le_antisymm h1 h2⟩
  rcases hV : V.min? with _ | a
  · rw [List.min?_eq_none_iff] at hV
    subst hV
    rw [← h.nil_eq]
    rfl
  · have hc := (List.min?_eq_some_iff (fun x => le_refl x) (fun x y => min_choice x y)
      (fun x y z => le_min_iff)).mp hV
    symm
    rw [List.min?_eq_some_iff (fun x => le_refl x) (fun x y => min_choice x y)
      (fun x y z => le_min_iff)]
    exact ⟨h.mem_iff.mp hc.1, fun b hb => hc.2 b (h.mem_iff.mpr hb)⟩

/-- The maximum of a list of rationals is permutation invariant. -/
theorem max?_perm {V W : List ℚ} (h : V.Perm W) : V.max? = W.max? := by
  haveI : Std.Antisymm ((· : ℚ) ≤ ·) := ⟨fun h1 h2 => le_antisymm h1 h2⟩
  rcases hV : V.max? with _ | a
  · rw [List.max?_eq_none_iff] at hV
    subst hV
    rw [← h.nil_eq]
    rfl
  · have hc := (List.max?_eq_some_iff (fun x => le_refl x) (fun x y => max_choice x y)
      (fun x y z => max_le_iff)).mp hV
    symm
    rw [List.max?_eq_some_iff (fun x => le_refl x) (fun x y => max_choice x y)
      (fun x y z => max_le_iff)]
    exact ⟨h.mem_iff.mp hc.1, fun b hb => hc.2 b (h.mem_iff.mpr hb)⟩

/-- C7: compute_stats is permutation invariant: every returned field
(count, mean, median, population standard deviation, min, max) is
independent of the input order. -/
theorem compute_stats_perm_invariant (V W : List ℚ) (h : V.Perm W) :
    compute_stats V = compute_stats W := by
  by_cases hVe : V = []
  · subst hVe
    rw [← h.nil_eq]
  · have hWe : W ≠ [] := fun hw => hVe (List.Perm.eq_nil (hw ▸ h))
    have hmap : (V.map fun x => (x - V.sum / (V.length : ℚ)) ^ 2).sum =
        (W.map fun x => (x - W.sum / (W.length : ℚ)) ^ 2).sum := by
      rw [h.sum_eq, h.length_eq]
      exact (h.map _).sum_eq
    simp only [compute_stats]
    rw [if_neg hVe, if_neg hWe]
    congr 1
    · exact h.length_eq
    · rw [h.sum_eq, h.length_eq]
    · rw [insertionSort_perm_eq h, h.length_eq]
    · rw [hmap, h.length_eq]
    · rw [min?_perm h]
    · rw [max?_perm h]

/-- Closed instance of the permutation-invariance theorem at a concrete
pair of lists, the permutation hypothesis discharged concretely. -/
theorem compute_stats_perm_invariant_witness :
    ([1, 2, 3] : List ℚ).Perm [3, 1, 2] ∧
      compute_stats [1, 2, 3] = compute_stats [3, 1, 2] :=
  ⟨by decide, compute_stats_perm_invariant [1, 2, 3] [3, 1, 2] (by decide)⟩

/-- Python int() agrees with the floor on nonnegative rationals. -/
theorem ratTrunc_of_nonneg {q : ℚ} (h : 0 ≤ q) : ratTrunc q = ⌊q⌋ := if_pos h

/-- Python indexing succeeds on an in-range nonnegative index. -/
theorem pyGet_of_nonneg (l : List ℚ) (i : ℤ) (h0 : 0 ≤ i) (hn : i < (l.length : ℤ)) :
    pyGet l i = .ok (l.getD i.toNat 0) := by
  unfold pyGet
  rw [if_pos ⟨h0, hn⟩]

/-- Shared evaluation lemma: on a non-empty list with 0 <= p <= 100 the
percentile computation stays in range and returns the interpolation
between the two bracketing order statistics. -/
theorem compute_percentile_eval (V : List ℚ) (p : ℚ)
    (hne : V ≠ []) (h0 : 0 ≤ p) (h100 : p ≤ 100) :
    compute_percentile V p = .ok (some (
      (List.insertionSort (· ≤ ·) V).getD (⌊p / 100 * ((V.length : ℚ) - 1)⌋).toNat 0 *
        (1 - (p / 100 * ((V.length : ℚ) - 1) -
          ((⌊p / 100 * ((V.length : ℚ) - 1)⌋).toNat : ℚ))) +
      (List.insertionSort (· ≤ ·) V).getD
        (min ((⌊p / 100 * ((V.length : ℚ) - 1)⌋).toNat + 1) (V.length - 1)) 0 *
        (p / 100 * ((V.length : ℚ) - 1) -
          ((⌊p / 100 * ((V.length : ℚ) - 1)⌋).toNat : ℚ)))) := by
  have hn1 : 0 < V.length := List.length_pos.mpr hne
  set r : ℚ := p / 100 * ((V.length : ℚ) - 1) with hrdef
  have hn1Q : (1 : ℚ) ≤ (V.length : ℚ) := by exact_mod_cast hn1
  have hr0 : 0 ≤ r := by
    apply mul_nonneg (div_nonneg h0 (by norm_num))
    linarith
  have hp1 : p / 100 ≤ 1 := by
    rw [div_le_one (by norm_num : (0 : ℚ) < 100)]
    exact h100
  have hrn : r ≤ (V.length : ℚ) - 1 := by
    calc r ≤ 1 * ((V.length : ℚ) - 1) := mul_le_mul_of_nonneg_right hp1 (by linarith)
      _ = (V.length : ℚ) - 1 := one_mul _
  have hfl0 : 0 ≤ ⌊r⌋ := Int.floor_nonneg.mpr hr0
  have hfln : ⌊r⌋ ≤ (V.length : ℤ) - 1 := by
    calc ⌊r⌋ ≤ ⌊((V.length : ℚ) - 1)⌋ := Int.floor_le_floor hrn
      _ = (V.length : ℤ) - 1 := by
          rw [show ((V.length : ℚ) - 1) = (((V.length : ℤ) - 1 : ℤ) : ℚ) by push_cast; ring,
            Int.floor_intCast]
  have hcast : ((⌊r⌋.toNat : ℕ) : ℚ) = ((⌊r⌋ : ℤ) : ℚ) := by
    exact_mod_cast congrArg (fun z : ℤ => (z : ℚ)) (Int.toNat_of_nonneg hfl0)
  have hlen : (List.insertionSort (· ≤ ·) V).length = V.length :=
    (List.perm_insertionSort _ V).length_eq
  simp only [compute_percentile]
  rw [if_neg hne, hlen, ← hrdef, ratTrunc_of_nonneg hr0]
  rw [pyGet_of_nonneg _ _ hfl0 (by rw [hlen]; omega)]
  have hu0 : 0 ≤ min (⌊r⌋ + 1) ((V.length : ℤ) - 1) := le_min (by omega) (by omega)
  rw [pyGet_of_nonneg _ _ hu0 (by rw [hlen]; omega)]
  have hidx : (min (⌊r⌋ + 1) ((V.length : ℤ) - 1)).toNat =
      min (⌊r⌋.toNat + 1) (V.length - 1) := by omega
  rw [hidx, hcast]

/-- C2 (amended): compute_percentile is unknown on the empty list; on a
non-empty list with 0 ≤ p ≤ 100 it returns the linear interpolation
sorted[lo]*(1-w) + sorted[hi]*w with lo = floor((p/100)(N-1)),
hi = min(lo+1, N-1) and w the fractional rank remainder.  (For p outside
[0,100] the claimed total safety fails: the min guard clamps only the
upper index, see the counterexample.) -/
theorem compute_percentile_spec (V : List ℚ) (p : ℚ) :
    (V = [] → compute_percentile V p = .ok none) ∧
    (V ≠ [] → 0 ≤ p → p ≤ 100 →
      ∃ lo hi : ℕ, ∃ w : ℚ,
        (lo : ℤ) = ⌊p / 100 * ((V.length : ℚ) - 1)⌋ ∧
        hi = min (lo + 1) (V.length - 1) ∧
        w = p / 100 * ((V.length : ℚ) - 1) - (lo : ℚ) ∧
        compute_percentile V p = .ok (some (
          (List.insertionSort (· ≤ ·) V).getD lo 0 * (1 - w) +
          (List.insertionSort (· ≤ ·) V).getD hi 0 * w))) := by
  constructor
  · intro h
    subst h
    rfl
  · intro hne h0 h100
    have hn1 : 0 < V.length := List.length_pos.mpr hne
    have hn1Q : (1 : ℚ) ≤ (V.length : ℚ) := by exact_mod_cast hn1
    have hr0 : 0 ≤ p / 100 * ((V.length : ℚ) - 1) := by
      apply mul_nonneg (div_nonneg h0 (by norm_num))
      linarith
    exact ⟨(⌊p / 100 * ((V.length : ℚ) - 1)⌋).toNat, _, _,
      Int.toNat_of_nonneg (Int.floor_nonneg.mpr hr0), rfl, rfl,
      compute_percentile_eval V p hne h0 h100⟩

/-- Counterexample to the claimed total safety of compute_percentile:
for V = [1, 2] and p = 200 the fractional rank is 2, the lower index 2
is out of range on a list of length 2 and the code raises IndexError
(the min guard clamps only the upper index). -/
theorem compute_percentile_counterexample :
    compute_percentile [1, 2] 200 = .error "IndexError" := by
  have hs : List.insertionSort (· ≤ ·) ([1, 2] : List ℚ) = [1, 2] := by
    apply List.Sorted.insertionSort_eq
    norm_num [List.sorted_cons]
  have hrank : (200 : ℚ) / 100 * ((([1, 2] : List ℚ).length : ℚ) - 1) = 2 := by
    norm_num
  simp only [compute_percentile, hs]
  rw [if_neg (by simp : ([1, 2] : List ℚ) ≠ [])]
  rw [hrank]
  have htr : ratTrunc (2 : ℚ) = 2 := by
    rw [ratTrunc_of_nonneg (by norm_num)]
    norm_num
  rw [htr]
  have hget : pyGet [1, 2] 2 = .error "IndexError" := by
    unfold pyGet
    rw [if_neg (by norm_num), if_neg (by norm_num)]
  rw [hget]

/-- Closed instances of the percentile theorem: the empty case and an
in-range case with every hypothesis discharged concretely. -/
theorem compute_percentile_spec_witness :
    compute_percentile ([] : List ℚ) 50 = .ok none ∧
    (∃ lo hi : ℕ, ∃ w : ℚ,
      (lo : ℤ) = ⌊(50 : ℚ) / 100 * ((([10, 20] : List ℚ).length : ℚ) - 1)⌋ ∧
      hi = min (lo + 1) (([10, 20] : List ℚ).length - 1) ∧
      w = (50 : ℚ) / 100 * ((([10, 20] : List ℚ).length : ℚ) - 1) - (lo : ℚ) ∧
      compute_percentile [10, 20] 50 = .ok (some (
        (List.insertionSort (· ≤ ·) ([10, 20] : List ℚ)).getD lo 0 * (1 - w) +
        (List.insertionSort (· ≤ ·) ([10, 20] : List ℚ)).getD hi 0 * w))) :=
  ⟨(compute_percentile_spec [] 50).1 rfl,
    (compute_percentile_spec [10, 20] 50).2 (by simp) (by norm_num) (by norm_num)⟩

/-- C5: find_outliers returns the empty list on fewer than 4 values for
every method; on at least 4 values with the iqr method it returns
exactly the values strictly outside [Q1 - 1.5 IQR, Q3 + 1.5 IQR], by
filtering the input, hence an order-preserving subsequence of it. -/
theorem find_outliers_spec (values : List ℚ) :
    (values.length < 4 → ∀ method, find_outliers values method = .ok []) ∧
    (4 ≤ values.length →
      ∃ q1 q3 : ℚ, compute_percentile values 25 = .ok (some q1) ∧
        compute_percentile values 75 = .ok (some q3) ∧
        find_outliers values "iqr" = .ok (values.filter fun v =>
          decide (v < q1 - 3 / 2 * (q3 - q1)) || decide (q3 + 3 / 2 * (q3 - q1) < v)) ∧
        List.Sublist (values.filter fun v =>
          decide (v < q1 - 3 / 2 * (q3 - q1)) || decide (q3 + 3 / 2 * (q3 - q1) < v))
          values) := by
  constructor
  · intro h method
    simp only [find_outliers]
    rw [if_pos (Or.inr h)]
  · intro h4
    have hne : values ≠ [] := by
      intro h
      rw [h] at h4
      simp at h4
    have h25 := compute_percentile_eval values 25 hne (by norm_num) (by norm_num)
    have h75 := compute_percentile_eval values 75 hne (by norm_num) (by norm_num)
    refine ⟨_, _, h25, h75, ?_, List.filter_sublist _⟩
    simp only [find_outliers]
    rw [if_neg (by push_neg; exact ⟨hne, by omega⟩), if_pos trivial, h25, h75]

/-- Closed instance of the find_outliers theorem at a short list and at
a concrete 5-element list, hypotheses discharged concretely. -/
theorem find_outliers_spec_witness :
    (([1] : List ℚ).length < 4 ∧ find_outliers [1] "zscore" = .ok []) ∧
    (4 ≤ ([1, 2, 2, 3, 100] : List ℚ).length ∧
      ∃ q1 q3 : ℚ, compute_percentile [1, 2, 2, 3, 100] 25 = .ok (some q1) ∧
        compute_percentile [1, 2, 2, 3, 100] 75 = .ok (some q3) ∧
        find_outliers [1, 2, 2, 3, 100] "iqr" = .ok (([1, 2, 2, 3, 100] : List ℚ).filter fun v =>
          decide (v < q1 - 3 / 2 * (q3 - q1)) || decide (q3 + 3 / 2 * (q3 - q1) < v)) ∧
        List.Sublist (([1, 2, 2, 3, 100] : List ℚ).filter fun v =>
          decide (v < q1 - 3 / 2 * (q3 - q1)) || decide (q3 + 3 / 2 * (q3 - q1) < v))
          [1, 2, 2, 3, 100]) :=
  ⟨⟨by norm_num, (find_outliers_spec [1]).1 (by norm_num) "zscore"⟩,
   ⟨by norm_num, (find_outliers_spec [1, 2, 2, 3, 100]).2 (by norm_num)⟩⟩

/-- Rounding half to even moves a rational by at most one half. -/
theorem roundHalfEven_close (q : ℚ) : |(roundHalfEven q : ℚ) - q| ≤ 1 / 2 := by
  have h1 : (⌊q⌋ : ℚ) ≤ q := Int.floor_le q
  have h2 : q - 1 < (⌊q⌋ : ℚ) := Int.sub_one_lt_floor q
  simp only [roundHalfEven]
  split_ifs with ha hb hc
  all_goals rw [abs_le]
  all_goals constructor
  all_goals push_cast
  all_goals linarith

/-- Rounding to two decimals moves a rational by at most 1/200. -/
theorem round2_close (q : ℚ) : |round2 q - q| ≤ 1 / 200 := by
  have h := roundHalfEven_close (q * 100)
  rw [abs_le] at h ⊢
  unfold round2
  constructor <;> linarith [h.1, h.2]

/-- C8: on a non-empty list of odd length, compute_percentile at p = 50
returns exactly the middle order statistic, which is the median that
compute_stats rounds to two decimals: the two agree within the rounding
tolerance 1/200. -/
theorem compute_percentile_median (V : List ℚ) (hne : V ≠ [])
    (hodd : V.length % 2 = 1) :
    ∃ m : ℚ, compute_percentile V 50 = .ok (some m) ∧
      (compute_stats V).median = some (round2 m) ∧ |round2 m - m| ≤ 1 / 200 := by
  obtain ⟨k, hk⟩ : ∃ k, V.length = 2 * k + 1 := ⟨V.length / 2, by omega⟩
  have h50 := compute_percentile_eval V 50 hne (by norm_num) (by norm_num)
  have hr : (50 : ℚ) / 100 * ((V.length : ℚ) - 1) = (k : ℚ) := by
    rw [hk]
    push_cast
    ring
  rw [hr, Int.floor_natCast, Int.toNat_natCast, sub_self, mul_zero, add_zero,
    sub_zero, mul_one] at h50
  have hstats : (compute_stats V).median =
      some (round2 ((List.insertionSort (· ≤ ·) V).getD k 0)) := by
    unfold compute_stats
    rw [if_neg hne]
    show some (round2 (if V.length % 2 = 0
        then ((List.insertionSort (· ≤ ·) V).getD (V.length / 2 - 1) 0 +
          (List.insertionSort (· ≤ ·) V).getD (V.length / 2) 0) / 2
        else (List.insertionSort (· ≤ ·) V).getD (V.length / 2) 0)) =
      some (round2 ((List.insertionSort (· ≤ ·) V).getD k 0))
    rw [if_neg (by omega), show V.length / 2 = k from by omega]
  exact ⟨(List.insertionSort (· ≤ ·) V).getD k 0, h50, hstats, round2_close _⟩

/-- Closed instance of the percentile-median agreement theorem at a
concrete odd-length list, hypotheses discharged concretely. -/
theorem compute_percentile_median_witness :
    ([3, 1, 2] : List ℚ) ≠ [] ∧ ([3, 1, 2] : List ℚ).length % 2 = 1 ∧
    (∃ m : ℚ, compute_percentile [3, 1, 2] 50 = .ok (some m) ∧
      (compute_stats [3, 1, 2]).median = some (round2 m) ∧ |round2 m - m| ≤ 1 / 200) :=
  ⟨by simp, by decide, compute_percentile_median [3, 1, 2] (by simp) (by decide)⟩
